import Mathlib

/-!
# Verification of the structure-function library

A shallow embedding of the C++ sources in
`src/tools/statistics/stats_library` (`stats.cpp`, `tools.cpp`, `vsf.cpp`).

Modelling conventions:

* A C++ `double` is modelled by `D`: either the missing sentinel `D.nan`
  (IEEE not-a-number, tested by `isnan` in the source) or an exact rational
  `D.num q`.  Rounding is out of model (the spec treats values as reals).
  Non-finite results of division by zero or of `pow(0, negative)` — IEEE
  infinities — are conflated with `D.nan`; no claim under verification
  reaches such an input with a finite, nonzero numerator.
* Two quantities that the C++ code stores as square roots are carried here
  as their squares, which determine them (both are nonnegative and the real
  square root is injective on nonnegatives): the pair separation distance
  (the source stores `sqrt((i-x)²+(j-y)²)`; we carry the natural number
  `pair_dist2 = (i-x)²+(j-y)²` computed with the source's `size_t`
  wraparound semantics) and the structure-function uncertainty (the source
  stores `std/(variance·sqrt(N-1))`; we carry its square
  `variance(powered)/(variance²·(N-1))`).  Theorems that need the claim's
  square-root phrasing bridge through `Real.sqrt`.
  Bucketing by the squared distance is equivalent to bucketing by the exact
  distance, again by injectivity of the square root on nonnegatives.
* The OpenMP fork/join regions only affect the ordering of buckets and of
  output rows (thread-local accumulation followed by key-wise concatenation),
  so the embedding is the sequential elaboration of the same loops; claims
  are stated order-insensitively (length / membership / counts).
-/

/-- Model of a C++ `double`: either the missing sentinel (not-a-number) or an
exact rational value. -/
inductive D where
  | nan : D
  | num : ℚ → D
deriving DecidableEq, Repr

namespace D

/-- `std::isnan` on the model. -/
def isnan : D → Bool
  | nan => true
  | num _ => false

/-- IEEE addition on the model: `nan` absorbs. -/
def add : D → D → D
  | nan, _ => nan
  | _, nan => nan
  | num a, num b => num (a + b)

/-- IEEE subtraction on the model: `nan` absorbs. -/
def sub : D → D → D
  | nan, _ => nan
  | _, nan => nan
  | num a, num b => num (a - b)

/-- IEEE multiplication on the model: `nan` absorbs. -/
def mul : D → D → D
  | nan, _ => nan
  | _, nan => nan
  | num a, num b => num (a * b)

/-- IEEE division on the model: `nan` absorbs, and division by zero is
non-finite (IEEE `0/0` is NaN, `x/0` is `±∞`; both conflated to `nan` here —
every division in the embedded code has a numerator that is zero whenever its
denominator count is zero). -/
def div : D → D → D
  | nan, _ => nan
  | _, nan => nan
  | num a, num b => if b = 0 then nan else num (a / b)

/-- `std::abs` on the model. -/
def dabs : D → D
  | nan => nan
  | num a => num |a|

/-- `std::pow(v, (double) e)` for an integer exponent `e`.  IEEE:
`pow(x, 0) = 1` for every `x` (including NaN); `pow(NaN, e) = NaN` otherwise;
`pow(0, e) = ±∞` for `e < 0` (conflated to `nan`); otherwise the exact
integer power of the rational base. -/
def dpow (v : D) (e : ℤ) : D :=
  if e = 0 then num 1
  else match v with
    | nan => nan
    | num q => if q = 0 ∧ e < 0 then nan else num (q ^ e)

end D

/-- `vector_2d` of the source (`tools.h`): a vector of rows of doubles. -/
abbrev vector_2d := List (List D)

/-- Reads `input_array[y][x]`; out-of-range access (undefined behaviour in
C++, unreachable under the rectangular-grid hypotheses of the theorems)
defaults to the missing sentinel. -/
def cell (g : vector_2d) (y x : ℕ) : D := (g.getD y []).getD x D.nan

/-- `input_array[0].size()` of the source. -/
def gridWidth (g : vector_2d) : ℕ := (g.getD 0 []).length

/-! ## `stats.cpp` -/

/-- `mean(const vector<double>&)` (stats.cpp:12-20): accumulate skipping
NaN entries, count the non-NaN entries, divide. -/
def mean1 (vals : List D) : D :=
  let total : ℚ := vals.foldl
    (fun acc v => match v with | D.nan => acc | D.num q => acc + q) 0
  let size : ℕ := vals.countP (fun v => !v.isnan)
  D.div (D.num total) (D.num size)

/-- `mean(const vector_2d&)` (stats.cpp:25-38): per-row accumulation of
(total, count) pairs skipping NaN entries, then one division. -/
def mean2 (vals : vector_2d) : D :=
  let acc : ℚ × ℕ := vals.foldl
    (fun acc row => row.foldl
      (fun a v => match v with | D.nan => a | D.num q => (a.1 + q, a.2 + 1)) acc)
    (0, 0)
  D.div (D.num acc.1) (D.num acc.2)

/-- `sum(const vector<double>&)` (stats.cpp:43-50).  NOTE: unlike every
other reduction in `stats.cpp`, the accumulator here is `acc + val` with NO
`isnan` test, so a NaN entry contaminates the total. -/
def sum1 (vals : List D) : D :=
  vals.foldl D.add (D.num 0)

/-- `sum(const vector_2d&)` (stats.cpp:55-68): nested accumulation that
skips NaN entries. -/
def sum2 (vals : vector_2d) : D :=
  vals.foldl
    (fun acc row => row.foldl
      (fun a v => match v with | D.nan => a | D.num q => D.add a (D.num q)) acc)
    (D.num 0)

/-- `sum_of_squares(const vector_2d&)` (stats.cpp:73-86). -/
def sum_of_squares (vals : vector_2d) : D :=
  vals.foldl
    (fun acc row => row.foldl
      (fun a v => match v with
        | D.nan => a
        | D.num q => D.add a (D.num (q * q))) acc)
    (D.num 0)

/-- `pow(const vector<double>&, double)` (stats.cpp:91-98) for an integer
exponent: exact passthrough when the exponent is 1, elementwise power
otherwise (NaN entries are NOT specially handled and propagate). -/
def powList (vals : List D) (e : ℤ) : List D :=
  if e = 1 then vals
  else vals.map (fun v => v.dpow e)

/-- `variance(const vector<double>&)` (stats.cpp:114-122): population
variance; the accumulator skips NaN entries and carries
`Σ (val - mean)²` together with the non-NaN count. -/
def variance1 (vals : List D) : D :=
  let m := mean1 vals
  let acc : D × ℕ := vals.foldl
    (fun acc v => match v with
      | D.nan => acc
      | D.num q =>
        (D.add acc.1 (D.mul (D.sub (D.num q) m) (D.sub (D.num q) m)), acc.2 + 1))
    (D.num 0, 0)
  D.div acc.1 (D.num acc.2)

/-- `variance(const vector_2d&)` (stats.cpp:129-144): nested version of
`variance1`. -/
def variance2 (vals : vector_2d) : D :=
  let m := mean2 vals
  let acc : D × ℕ := vals.foldl
    (fun acc row => row.foldl
      (fun a v => match v with
        | D.nan => a
        | D.num q =>
          (D.add a.1 (D.mul (D.sub (D.num q) m) (D.sub (D.num q) m)), a.2 + 1)) acc)
    (D.num 0, 0)
  D.div acc.1 (D.num acc.2)

/-- The square of `standard_deviation(const vector<double>&)`
(stats.cpp:149-152, `sqrt(variance)`); the square root itself is irrational
in general and is recovered through `Real.sqrt` in the theorems. -/
def standard_deviation_sq (vals : List D) : D := variance1 vals

/-- `count_non_nan(const vector_2d&)` (stats.cpp:157-170). -/
def count_non_nan (vals : vector_2d) : ℕ :=
  vals.foldl (fun acc row => row.foldl
    (fun a v => match v with | D.nan => a | D.num _ => a + 1) acc) 0

/-! ## `tools.cpp`: the pairwise enumerator -/

/-- `size_t` subtraction `a - b` (two's-complement wraparound modulo `2^64`)
for operands below `2^64`. -/
def usub (a b : ℕ) : ℕ := (a + 2 ^ 64 - b) % 2 ^ 64

/-- The argument of `sqrt` at tools.cpp:114:
`(i - x) * (i - x) + (j - y) * (j - y)` evaluated in `size_t` arithmetic,
every operation wrapping modulo `2^64`.  The emitted distance is the real
square root of this number. -/
def pair_dist2 (x y i j : ℕ) : ℕ :=
  (usub i x * usub i x % 2 ^ 64 + usub j y * usub j y % 2 ^ 64) % 2 ^ 64

/-- The loop-index quadruple of one iteration of the pair enumeration:
outer cell `(y, x)`, inner cell `(j, i)`. -/
structure PairIdx where
  y : ℕ
  x : ℕ
  j : ℕ
  i : ℕ
deriving DecidableEq, Repr

/-- The quadruples visited and not skipped by the loop nest of
`apply_vector_map` (tools.cpp:108-117), in source iteration order:
`y < height`, `x < width`, `j` from `y`, `i` from `x` when `j = y` and from
`0` otherwise, skipping any cell holding the missing sentinel. -/
def enumPairs (g : vector_2d) : List PairIdx :=
  let height := g.length
  let width := gridWidth g
  (List.range height).flatMap fun y =>
    (List.range width).flatMap fun x =>
      if (cell g y x).isnan then []
      else
        (List.range' y (height - y)).flatMap fun j =>
          (List.range' (if j = y then x else 0)
              (width - (if j = y then x else 0))).filterMap fun i =>
            if (cell g j i).isnan then none
            else some ⟨y, x, j, i⟩

/-- `apply_vector_map` (tools.cpp:93-130), sequential elaboration (the OpenMP
split only permutes the output across threads): the same loop nest as
`enumPairs`, pushing `(distance², function(value, value))` per surviving
pair. -/
def apply_vector_map (g : vector_2d) (f : D → D → D) : List (ℕ × D) :=
  let height := g.length
  let width := gridWidth g
  (List.range height).flatMap fun y =>
    (List.range width).flatMap fun x =>
      if (cell g y x).isnan then []
      else
        (List.range' y (height - y)).flatMap fun j =>
          (List.range' (if j = y then x else 0)
              (width - (if j = y then x else 0))).filterMap fun i =>
            if (cell g j i).isnan then none
            else some (pair_dist2 x y i j, f (cell g y x) (cell g j i))

/-- `multiply_pairs` (tools.cpp:135-137). -/
def multiply_pairs (g : vector_2d) : List (ℕ × D) :=
  apply_vector_map g (fun a b => D.mul a b)

/-- `subtract_pairs` (tools.cpp:142-144). -/
def subtract_pairs (g : vector_2d) : List (ℕ × D) :=
  apply_vector_map g (fun a b => D.dabs (D.sub a b))

/-! ## `tools.cpp`: the distance-bucketing aggregator -/

/-- One step of `regrouped_vals[dist].push_back(val)` on an association-list
model of the `unordered_map` (the hash map's bucket order is unspecified;
the association list realises one order, and every claim is stated
order-insensitively). -/
def insertVal (m : List (ℕ × List D)) (k : ℕ) (v : D) : List (ℕ × List D) :=
  match m with
  | [] => [(k, [v])]
  | (k', vs) :: rest =>
    if k = k' then (k', vs ++ [v]) :: rest else (k', vs) :: insertVal rest k v

/-- `regroup_distance_thread_local` (tools.cpp:13-34), sequential elaboration:
appends each value to the bucket of its distance key; the thread-local
split followed by key-wise concatenation only permutes bucket contents. -/
def regroup_distance_thread_local (l : List (ℕ × D)) : List (ℕ × List D) :=
  l.foldl (fun m kv => insertVal m kv.1 kv.2) []

/-! ## `vsf.cpp`: the structure-function reducer -/

/-- One output row `{dist, structure, structure_uncertainty}` (vsf.cpp:54),
carried as (distance², structure, uncertainty²): the emitted distance is
`Real.sqrt` of the first component and the emitted uncertainty is
`Real.sqrt` of the third. -/
abbrev Row := ℕ × D × D

/-- The loop body of `structure_function` (vsf.cpp:39-55) for one bucket
`(dist, vals)`: `none` when the bucket is skipped, otherwise the emitted
row.  The uncertainty `std_val / (variance_val * sqrt(N - 1))` is carried by
its square `variance1(pow_values) / (variance_val² · (N - 1))`. -/
def structure_function_row (variance_val : D) (order : ℤ) (distVals : ℕ × List D) :
    Option Row :=
  let dist2 := distVals.1
  let vals := distVals.2
  if dist2 = 0 then none          -- reject zero distances
  else
    let pow_values := powList vals order
    let N := pow_values.length
    if N = 1 then none            -- skip if there is only one value
    else
      let mean_val := mean1 pow_values
      let std_sq := standard_deviation_sq pow_values
      let structure_val := D.div mean_val variance_val
      let structure_uncertainty_sq :=
        D.div std_sq (D.mul (D.mul variance_val variance_val) (D.num (N - 1)))
      some (dist2, structure_val, structure_uncertainty_sq)

/-- `structure_function` (vsf.cpp:17-64): enumerate pairwise absolute
differences with distances, regroup by distance, compute the grid variance,
and for every bucket with nonzero distance and more than one sample emit
`(dist, mean(vals^order)/variance, std(vals^order)/(variance·sqrt(N-1)))`. -/
def structure_function (input_array : vector_2d) (order : ℤ) : List Row :=
  let single_dists_and_vals_1d := subtract_pairs input_array
  let regrouped_vals := regroup_distance_thread_local single_dists_and_vals_1d
  let variance_val := variance2 input_array
  regrouped_vals.filterMap (structure_function_row variance_val order)

/-! ## Helper lemmas -/

/-- A fold whose step fixes the accumulator on the missing sentinel is the
identity on an all-missing row. -/
lemma foldl_all_nan {β : Type} (f : β → D → β) (hf : ∀ b, f b D.nan = b)
    (row : List D) (hrow : ∀ v ∈ row, v = D.nan) (acc : β) :
    row.foldl f acc = acc := by
  induction row generalizing acc with
  | nil => rfl
  | cons v rest ih =>
    have hv : v = D.nan := hrow v (List.mem_cons_self ..)
    have hrest : ∀ u ∈ rest, u = D.nan := fun u hu => hrow u (List.mem_cons_of_mem _ hu)
    simp [List.foldl_cons, hv, hf, ih hrest]

/-- `insertVal` preserves the invariant that no bucket is empty. -/
lemma insertVal_buckets_ne_nil (m : List (ℕ × List D)) (k : ℕ) (v : D)
    (hm : ∀ kv ∈ m, kv.2 ≠ []) :
    ∀ kv ∈ insertVal m k v, kv.2 ≠ [] := by
  induction m with
  | nil =>
    intro kv hkv
    simp only [insertVal, List.mem_singleton] at hkv
    simp [hkv]
  | cons hd tl ih =>
    intro kv hkv
    obtain ⟨k', vs⟩ := hd
    simp only [insertVal] at hkv
    by_cases hk : k = k'
    · rw [if_pos hk] at hkv
      rcases List.mem_cons.mp hkv with h | h
      · simp [h]
      · exact hm kv (List.mem_cons_of_mem _ h)
    · rw [if_neg hk] at hkv
      rcases List.mem_cons.mp hkv with h | h
      · exact h ▸ hm (k', vs) (List.mem_cons_self ..)
      · exact ih (fun kv hv => hm kv (List.mem_cons_of_mem _ hv)) kv h

/-- Every bucket produced by the aggregation fold is nonempty. -/
lemma regroup_buckets_ne_nil (l : List (ℕ × D)) :
    ∀ kv ∈ regroup_distance_thread_local l, kv.2 ≠ [] := by
  unfold regroup_distance_thread_local
  have main : ∀ (l : List (ℕ × D)) (m : List (ℕ × List D)),
      (∀ kv ∈ m, kv.2 ≠ []) →
      ∀ kv ∈ l.foldl (fun m kv => insertVal m kv.1 kv.2) m, kv.2 ≠ [] := by
    intro l
    induction l with
    | nil => intro m hm; simpa using hm
    | cons hd tl ih =>
      intro m hm
      exact ih _ (insertVal_buckets_ne_nil m hd.1 hd.2 hm)
  exact main l [] (by simp)

/-- `pow(vals, e)` preserves the length of the value list. -/
lemma powList_length (vals : List D) (e : ℤ) : (powList vals e).length = vals.length := by
  unfold powList
  by_cases h : e = 1 <;> simp [h]

/-- Full evaluation of the spec's concrete scenario: grid `[[1,2],[3,4]]`,
order 1. -/
lemma sf_2x2_eval : structure_function [[D.num 1, D.num 2], [D.num 3, D.num 4]] 1 =
    [(1, D.num (6/5), D.num (4/75)), (2, D.num (8/5), D.num (16/25))] := by
  norm_num [structure_function, structure_function_row, subtract_pairs,
    apply_vector_map, cell, gridWidth, pair_dist2, usub, regroup_distance_thread_local,
    insertVal, powList, mean1, variance1, standard_deviation_sq, mean2, variance2,
    D.isnan, D.dabs, D.sub, D.add, D.mul, D.div,
    List.range_succ, List.range', List.filterMap_cons,
    List.getElem?_cons_zero, List.getElem?_cons_succ, List.getD,
    List.countP_cons, List.countP_nil]

/-! ## The claims -/

/-- C1: for the input grid `[[1,2],[3,4]]` with order 1, `structure_function`
returns exactly two rows: one at distance 1 (squared distance 1) with
structure value `6/5 = 1.2` and one at distance `√2` (squared distance 2)
with structure value `8/5 = 1.6`; each structure value is the bucket mean
(`3/2` and `2`) divided by the grid variance `5/4 = 1.25`, and each
uncertainty (the square root of the carried third component) equals the
bucket standard deviation divided by the variance times `√(N-1)` (buckets of
`N = 4` and `N = 2` samples with standard deviations `√(1/4)` and `√1`). -/
theorem C1_concrete_scenario :
    (structure_function [[D.num 1, D.num 2], [D.num 3, D.num 4]] 1).length = 2 ∧
    (1, D.num (6/5), D.num (4/75)) ∈
      structure_function [[D.num 1, D.num 2], [D.num 3, D.num 4]] 1 ∧
    (2, D.num (8/5), D.num (16/25)) ∈
      structure_function [[D.num 1, D.num 2], [D.num 3, D.num 4]] 1 ∧
    variance2 [[D.num 1, D.num 2], [D.num 3, D.num 4]] = D.num (5/4) ∧
    mean1 [D.num 1, D.num 2, D.num 2, D.num 1] = D.num (3/2) ∧
    mean1 [D.num 3, D.num 1] = D.num 2 ∧
    D.div (D.num (3/2)) (D.num (5/4)) = D.num (6/5) ∧
    D.div (D.num 2) (D.num (5/4)) = D.num (8/5) ∧
    standard_deviation_sq [D.num 1, D.num 2, D.num 2, D.num 1] = D.num (1/4) ∧
    standard_deviation_sq [D.num 3, D.num 1] = D.num 1 ∧
    Real.sqrt (4/75) = Real.sqrt (1/4) / (5/4 * Real.sqrt (4-1)) ∧
    Real.sqrt (16/25) = Real.sqrt 1 / (5/4 * Real.sqrt (2-1)) := by
  refine ⟨by rw [sf_2x2_eval]; rfl, by rw [sf_2x2_eval]; simp, by rw [sf_2x2_eval]; simp,
    by norm_num [variance2, mean2, D.add, D.sub, D.mul, D.div],
    by norm_num [mean1, D.div, List.countP_cons, List.countP_nil, D.isnan],
    by norm_num [mean1, D.div, List.countP_cons, List.countP_nil, D.isnan],
    by norm_num [D.div],
    by norm_num [D.div],
    by norm_num [standard_deviation_sq, variance1, mean1, D.div, D.add, D.sub, D.mul,
      List.countP_cons, List.countP_nil, D.isnan],
    by norm_num [standard_deviation_sq, variance1, mean1, D.div, D.add, D.sub, D.mul,
      List.countP_cons, List.countP_nil, D.isnan],
    ?_, ?_⟩
  · have h34 : Real.sqrt (1/4) = 1/2 := by
      rw [show (1/4 : ℝ) = (1/2)^2 by norm_num, Real.sqrt_sq (by norm_num)]
    have h3 : (4 - 1 : ℝ) = 3 := by norm_num
    have hs : Real.sqrt (4/75) = 2 * Real.sqrt 3 / 15 := by
      rw [show (4/75 : ℝ) = (2 * Real.sqrt 3 / 15)^2 by
          rw [div_pow, mul_pow, Real.sq_sqrt (by norm_num : (0:ℝ) ≤ 3)]; norm_num,
        Real.sqrt_sq (by positivity)]
    rw [hs, h34, h3]
    field_simp
    nlinarith [Real.sq_sqrt (show (0:ℝ) ≤ 3 by norm_num), Real.sqrt_nonneg 3]
  · rw [show (2-1 : ℝ) = 1 by norm_num, Real.sqrt_one,
      show (16/25 : ℝ) = (4/5)^2 by norm_num, Real.sqrt_sq (by norm_num)]
    norm_num

/-- C3: the flat `sum` does NOT ignore the missing sentinel, contrary to the
spec's contract for every reduction: on `[1, NaN]` it returns NaN instead of
the non-missing total 1.  The nested `sum` over `[[1, NaN]]`, by contrast,
does skip the sentinel and returns 1, as do all other reductions in
`stats.cpp` — the missing `isnan` guard at stats.cpp:47 is a slip. -/
theorem C3_sum_flat_propagates_nan :
    sum1 [D.num 1, D.nan] = D.nan ∧ D.nan ≠ D.num 1 ∧
    sum2 [[D.num 1, D.nan]] = D.num 1 := by
  refine ⟨rfl, by simp, by norm_num [sum2, D.add]⟩

/-- C4: every row emitted by `structure_function` has a nonzero (squared)
distance and comes from a bucket of the regrouped map holding at least two
samples. -/
theorem C4_rows_from_eligible_buckets (g : vector_2d) (order : ℤ) (r : Row)
    (hr : r ∈ structure_function g order) :
    r.1 ≠ 0 ∧
    ∃ vals, (r.1, vals) ∈ regroup_distance_thread_local (subtract_pairs g) ∧
      2 ≤ vals.length := by
  unfold structure_function at hr
  rw [List.mem_filterMap] at hr
  obtain ⟨kv, hkv, hsome⟩ := hr
  unfold structure_function_row at hsome
  by_cases h0 : kv.1 = 0
  · simp [h0] at hsome
  · rw [if_neg h0] at hsome
    by_cases hN : (powList kv.2 order).length = 1
    · simp [hN] at hsome
    · rw [if_neg hN] at hsome
      have hr1 : r.1 = kv.1 := by
        have h := Option.some_inj.mp hsome
        rw [← h]
      have hne := regroup_buckets_ne_nil (subtract_pairs g) kv hkv
      have hpos : 0 < kv.2.length := List.length_pos.mpr hne
      rw [powList_length] at hN
      refine ⟨hr1 ▸ h0, kv.2, ?_, by omega⟩
      rw [hr1]
      exact hkv

theorem C4_witness :
    ((1:ℕ), D.num (6/5), D.num (4/75)).1 ≠ 0 ∧
    ∃ vals, (((1:ℕ), D.num (6/5), D.num (4/75)).1, vals) ∈
        regroup_distance_thread_local
          (subtract_pairs [[D.num 1, D.num 2], [D.num 3, D.num 4]]) ∧
      2 ≤ vals.length :=
  C4_rows_from_eligible_buckets [[D.num 1, D.num 2], [D.num 3, D.num 4]] 1
    (1, D.num (6/5), D.num (4/75)) (by rw [sf_2x2_eval]; simp)

/-- C10: every bucket produced by the distance-bucketing aggregator holds at
least one value (no empty bucket is ever created), so in the reducer the
only possible sample counts are `N ≥ 1` and the single `N == 1` test is
equivalent to the fewer-than-2-samples exclusion. -/
theorem C10_buckets_nonempty (l : List (ℕ × D)) (k : ℕ) (vals : List D)
    (h : (k, vals) ∈ regroup_distance_thread_local l) (order : ℤ) :
    1 ≤ vals.length ∧
    ((powList vals order).length = 1 ↔ (powList vals order).length < 2) := by
  have hne := regroup_buckets_ne_nil l (k, vals) h
  have h1 : 0 < vals.length := List.length_pos.mpr hne
  rw [powList_length]
  omega

theorem C10_witness :
    1 ≤ ([D.num 5] : List D).length ∧
    ((powList [D.num 5] 2).length = 1 ↔ (powList [D.num 5] 2).length < 2) :=
  C10_buckets_nonempty [(1, D.num 5)] 1 [D.num 5] (by simp [regroup_distance_thread_local, insertVal]) 2

/-- Indexing with default into an all-missing row yields the sentinel. -/
lemma row_all_nan_getD (row : List D) (h : ∀ v ∈ row, v = D.nan) (x : ℕ) :
    row.getD x D.nan = D.nan := by
  by_cases hx : x < row.length
  · rw [List.getD_eq_getElem row D.nan hx]
    exact h _ (List.getElem_mem hx)
  · exact List.getD_eq_default _ _ (by omega)

/-- Every cell of an all-missing grid reads as the sentinel. -/
lemma cell_all_nan (g : vector_2d) (hg : ∀ row ∈ g, ∀ v ∈ row, v = D.nan)
    (y x : ℕ) : cell g y x = D.nan := by
  unfold cell
  apply row_all_nan_getD
  by_cases hy : y < g.length
  · rw [List.getD_eq_getElem g [] hy]
    exact hg _ (List.getElem_mem hy)
  · rw [List.getD_eq_default _ _ (by omega)]
    intro v hv
    simp at hv

/-- The pairwise enumerator skips every pair of an all-missing grid. -/
lemma subtract_pairs_all_nan (g : vector_2d)
    (hg : ∀ row ∈ g, ∀ v ∈ row, v = D.nan) : subtract_pairs g = [] := by
  unfold subtract_pairs apply_vector_map
  simp [cell_all_nan g hg, D.isnan]

/-- C7 (amended): for an input grid all of whose entries are the missing
sentinel, `structure_function` returns an empty output — no rows at all and
no raised error. -/
theorem C7_all_missing_yields_empty (g : vector_2d) (order : ℤ)
    (hg : ∀ row ∈ g, ∀ v ∈ row, v = D.nan) :
    structure_function g order = [] := by
  unfold structure_function
  rw [subtract_pairs_all_nan g hg]
  rfl

theorem C7_witness :
    structure_function [[D.nan]] 1 = [] :=
  C7_all_missing_yields_empty [[D.nan]] 1 (by simp)

/-- C7 (counterexample to the claim as stated): for the all-missing 2×2
grid, `structure_function` emits no output rows whatsoever — in particular
it does not yield not-a-number outputs: no emitted row carries a NaN
structure value or uncertainty, because no row is emitted. -/
theorem C7_counterexample :
    structure_function [[D.nan, D.nan], [D.nan, D.nan]] 1 = [] ∧
    ¬ ∃ r ∈ structure_function [[D.nan, D.nan], [D.nan, D.nan]] 1,
        r.2.1 = D.nan ∨ r.2.2 = D.nan := by
  have h : structure_function [[D.nan, D.nan], [D.nan, D.nan]] 1 = [] := by
    norm_num [structure_function, structure_function_row, subtract_pairs,
      apply_vector_map, cell, gridWidth, D.isnan, regroup_distance_thread_local,
      List.range_succ, List.range', List.filterMap_cons, List.getD,
      List.getElem?_cons_zero, List.getElem?_cons_succ]
  refine ⟨h, by rw [h]; simp⟩

/-- C8: appending a row of all-missing entries leaves the 2D mean and the 2D
variance unchanged. -/
theorem C8_missing_row_invariant (g : vector_2d) (row : List D)
    (hrow : ∀ v ∈ row, v = D.nan) :
    mean2 (g ++ [row]) = mean2 g ∧ variance2 (g ++ [row]) = variance2 g := by
  have hmfold : ∀ acc : ℚ × ℕ,
      row.foldl (fun a v => match v with
        | D.nan => a
        | D.num q => (a.1 + q, a.2 + 1)) acc = acc :=
    fun acc => foldl_all_nan _ (fun b => rfl) row hrow acc
  have hmean : mean2 (g ++ [row]) = mean2 g := by
    unfold mean2
    rw [List.foldl_append]
    simp only [List.foldl_cons, List.foldl_nil]
    rw [hmfold]
  refine ⟨hmean, ?_⟩
  unfold variance2
  rw [hmean]
  simp only [List.foldl_append, List.foldl_cons, List.foldl_nil]
  rw [foldl_all_nan _ (fun b => rfl) row hrow]

theorem C8_witness :
    mean2 ([[D.num 1, D.num 2]] ++ [[D.nan, D.nan]]) = mean2 [[D.num 1, D.num 2]] ∧
    variance2 ([[D.num 1, D.num 2]] ++ [[D.nan, D.nan]]) = variance2 [[D.num 1, D.num 2]] :=
  C8_missing_row_invariant [[D.num 1, D.num 2]] [D.nan, D.nan] (by simp)

instance : NeZero ((2:ℕ) ^ 64) := ⟨by positivity⟩

/-- The wrapped `size_t` difference agrees with true subtraction in the ring
of integers modulo `2^64`. -/
lemma usub_cast (a b : ℕ) (hb : b ≤ 2 ^ 64) :
    ((usub a b : ℕ) : ZMod (2 ^ 64)) = (a : ZMod (2 ^ 64)) - (b : ZMod (2 ^ 64)) := by
  unfold usub
  rw [ZMod.natCast_mod, Nat.cast_sub (by omega), Nat.cast_add, ZMod.natCast_self]
  ring

/-- Squaring erases the sign: the square of the absolute difference and of
the signed difference coincide modulo `2^64`. -/
lemma natAbs_cast_sq_zmod (z : ℤ) :
    ((z.natAbs : ZMod (2 ^ 64))) ^ 2 = ((z : ZMod (2 ^ 64))) ^ 2 := by
  have h1 : ((z.natAbs ^ 2 : ℕ) : ℤ) = z ^ 2 := by
    rw [Nat.cast_pow]; exact Int.natAbs_sq z
  have h2 : (((z.natAbs ^ 2 : ℕ) : ℤ) : ZMod (2 ^ 64)) = ((z ^ 2 : ℤ) : ZMod (2 ^ 64)) := by
    rw [h1]
  rw [Int.cast_natCast, Nat.cast_pow, Int.cast_pow] at h2
  exact h2

/-- C5: for in-bounds loop indices on a grid of realistic size, the distance
argument computed with unsigned (`size_t`) loop indices — where `i - x`
wraps around when `i < x` — equals the exact squared Euclidean separation
`(i-x)² + (j-y)²`, because the wraparound cancels under squaring modulo
`2^64`; hence the emitted distance is exactly `sqrt((i-x)² + (j-y)²)`. -/
theorem C5_exact_euclidean_distance (w h x y i j : ℕ)
    (hx : x < w) (hi : i < w) (hy : y < h) (hj : j < h)
    (hw : w ≤ 2 ^ 31) (hh : h ≤ 2 ^ 31) :
    (pair_dist2 x y i j : ℤ) = ((i:ℤ) - x) ^ 2 + ((j:ℤ) - y) ^ 2 ∧
    Real.sqrt (pair_dist2 x y i j) =
      Real.sqrt (((i:ℝ) - x) ^ 2 + ((j:ℝ) - y) ^ 2) := by
  have ha : ((i:ℤ) - x).natAbs < 2 ^ 31 := by omega
  have hb : ((j:ℤ) - y).natAbs < 2 ^ 31 := by omega
  have ha2 : ((i:ℤ) - x).natAbs ^ 2 < 2 ^ 62 := by
    calc ((i:ℤ) - x).natAbs ^ 2 < (2 ^ 31) ^ 2 := Nat.pow_lt_pow_left ha (by norm_num)
    _ = 2 ^ 62 := by norm_num
  have hb2 : ((j:ℤ) - y).natAbs ^ 2 < 2 ^ 62 := by
    calc ((j:ℤ) - y).natAbs ^ 2 < (2 ^ 31) ^ 2 := Nat.pow_lt_pow_left hb (by norm_num)
    _ = 2 ^ 62 := by norm_num
  have ht : ((i:ℤ) - x).natAbs ^ 2 + ((j:ℤ) - y).natAbs ^ 2 < 2 ^ 64 := by omega
  have key : pair_dist2 x y i j
      = ((i:ℤ) - x).natAbs ^ 2 + ((j:ℤ) - y).natAbs ^ 2 := by
    have h1 : pair_dist2 x y i j < 2 ^ 64 := Nat.mod_lt _ (by positivity)
    have hcast : ((pair_dist2 x y i j : ℕ) : ZMod (2 ^ 64)) =
        ((((i:ℤ) - x).natAbs ^ 2 + ((j:ℤ) - y).natAbs ^ 2 : ℕ) : ZMod (2 ^ 64)) := by
      unfold pair_dist2
      push_cast [ZMod.natCast_mod, usub_cast i x (by omega), usub_cast j y (by omega)]
      rw [natAbs_cast_sq_zmod, natAbs_cast_sq_zmod]
      push_cast
      ring
    have hv := congrArg ZMod.val hcast
    rwa [ZMod.val_natCast_of_lt h1, ZMod.val_natCast_of_lt ht] at hv
  have hfst : (pair_dist2 x y i j : ℤ) = ((i:ℤ) - x) ^ 2 + ((j:ℤ) - y) ^ 2 := by
    rw [key, Nat.cast_add, Nat.cast_pow, Nat.cast_pow, Int.natAbs_sq, Int.natAbs_sq]
  refine ⟨hfst, ?_⟩
  have hr := congrArg (fun z : ℤ => (z : ℝ)) hfst
  push_cast at hr
  rw [hr]

theorem C5_witness :
    pair_dist2 3 0 1 2 = 8 ∧
    ((pair_dist2 3 0 1 2 : ℤ) = (((1:ℕ):ℤ) - ((3:ℕ):ℤ)) ^ 2 + (((2:ℕ):ℤ) - ((0:ℕ):ℤ)) ^ 2 ∧
     Real.sqrt (pair_dist2 3 0 1 2) =
       Real.sqrt ((((1:ℕ):ℝ) - ((3:ℕ):ℝ)) ^ 2 + (((2:ℕ):ℝ) - ((0:ℕ):ℝ)) ^ 2)) :=
  ⟨by decide,
   C5_exact_euclidean_distance 4 4 3 0 1 2 (by norm_num) (by norm_num)
     (by norm_num) (by norm_num) (by norm_num) (by norm_num)⟩

/-- Row-major lexicographic comparison of grid points: the inner point
`(j, i)` does not precede the outer point `(y, x)`. -/
def lexGE (y x j i : ℕ) : Prop := y < j ∨ (j = y ∧ x ≤ i)

instance (y x j i : ℕ) : Decidable (lexGE y x j i) := by
  unfold lexGE
  infer_instance

/-- A quadruple is visited by the enumeration loops exactly when both cells
are in bounds and non-missing and the inner cell does not precede the outer
cell in row-major order. -/
def validPair (g : vector_2d) (t : PairIdx) : Prop :=
  t.y < g.length ∧ t.x < gridWidth g ∧ t.j < g.length ∧ t.i < gridWidth g ∧
  (cell g t.y t.x).isnan = false ∧ (cell g t.j t.i).isnan = false ∧
  lexGE t.y t.x t.j t.i

lemma mem_ite_nil_else {α : Type} (b : Bool) (l : List α) (a : α) :
    (a ∈ if b = true then ([] : List α) else l) ↔ b = false ∧ a ∈ l := by
  cases b <;> simp

lemma ite_none_some_eq {α : Type} (b : Bool) (v t : α) :
    ((if b = true then none else some v) = some t) ↔ b = false ∧ v = t := by
  cases b <;> simp

lemma mem_enumPairs (g : vector_2d) (t : PairIdx) :
    t ∈ enumPairs g ↔ validPair g t := by
  unfold enumPairs validPair lexGE
  simp only [List.mem_flatMap, List.mem_range, mem_ite_nil_else, List.mem_filterMap,
    ite_none_some_eq, List.mem_range'_1]
  constructor
  · rintro ⟨y, hy, x, hx, hnan1, j, ⟨hj1, hj2⟩, i, ⟨hi1, hi2⟩, hnan2, heq⟩
    subst heq
    dsimp only
    refine ⟨hy, hx, by omega, ?_, hnan1, hnan2, ?_⟩
    · by_cases hjy : j = y
      · rw [if_pos hjy] at hi2
        omega
      · rw [if_neg hjy] at hi2
        omega
    · by_cases hjy : j = y
      · rw [if_pos hjy] at hi1
        omega
      · omega
  · intro hv
    obtain ⟨y0, x0, j0, i0⟩ := t
    obtain ⟨hy, hx, hj, hi, hnan1, hnan2, hlex⟩ := hv
    dsimp only at hy hx hj hi hnan1 hnan2 hlex
    refine ⟨y0, hy, x0, hx, hnan1, j0, ⟨by omega, by omega⟩, i0, ⟨?_, ?_⟩, hnan2, rfl⟩
    · by_cases hjy : j0 = y0
      · rw [if_pos hjy]
        omega
      · rw [if_neg hjy]
        omega
    · by_cases hjy : j0 = y0
      · rw [if_pos hjy]
        omega
      · rw [if_neg hjy]
        omega

/-- Every element pushed by the two inner loops records the indices of the
loops it came from. -/
lemma mem_inner_shape (g : vector_2d) (y x j : ℕ) (t : PairIdx)
    (ht : t ∈ (List.range' (if j = y then x else 0)
        (gridWidth g - (if j = y then x else 0))).filterMap fun i =>
          if (cell g j i).isnan then none else some ⟨y, x, j, i⟩) :
    t.y = y ∧ t.x = x ∧ t.j = j := by
  rw [List.mem_filterMap] at ht
  obtain ⟨i, _, hsome⟩ := ht
  rw [ite_none_some_eq] at hsome
  rw [← hsome.2]
  exact ⟨rfl, rfl, rfl⟩

/-- Every element pushed for a fixed outer cell `(y, x)` records `y` and
`x`. -/
lemma mem_outer_shape (g : vector_2d) (y x : ℕ) (t : PairIdx)
    (ht : t ∈ if (cell g y x).isnan then ([] : List PairIdx) else
        (List.range' y (g.length - y)).flatMap fun j =>
          (List.range' (if j = y then x else 0)
              (gridWidth g - (if j = y then x else 0))).filterMap fun i =>
            if (cell g j i).isnan then none else some ⟨y, x, j, i⟩) :
    t.y = y ∧ t.x = x := by
  rw [mem_ite_nil_else] at ht
  obtain ⟨j, hj, htj⟩ := List.mem_flatMap.mp ht.2
  obtain ⟨h1, h2, _⟩ := mem_inner_shape g y x j t htj
  exact ⟨h1, h2⟩

/-- The enumeration visits no quadruple twice. -/
lemma enumPairs_nodup (g : vector_2d) : (enumPairs g).Nodup := by
  unfold enumPairs
  apply List.nodup_flatMap.mpr
  refine ⟨?_, ?_⟩
  · intro y hy
    apply List.nodup_flatMap.mpr
    refine ⟨?_, ?_⟩
    · intro x hx
      by_cases hnan : (cell g y x).isnan
      · rw [if_pos hnan]
        exact List.nodup_nil
      · rw [if_neg hnan]
        apply List.nodup_flatMap.mpr
        refine ⟨?_, ?_⟩
        · intro j hj
          apply List.Nodup.filterMap
          · intro a a' b hb hb'
            rw [Option.mem_def, ite_none_some_eq] at hb hb'
            have h1 := hb.2
            have h2 := hb'.2
            rw [← h2] at h1
            exact (PairIdx.mk.injEq ..).mp h1 |>.2.2.2
          · exact List.nodup_range' _ _
        · apply List.Pairwise.imp ?_ (List.nodup_range' y (g.length - y))
          intro j1 j2 hne
          intro t ht1 ht2
          have h1 := (mem_inner_shape g y x j1 t ht1).2.2
          have h2 := (mem_inner_shape g y x j2 t ht2).2.2
          exact hne (by omega)
    · apply List.Pairwise.imp ?_ (List.nodup_range _)
      intro x1 x2 hne
      intro t ht1 ht2
      have h1 := (mem_outer_shape g y x1 t ht1).2
      have h2 := (mem_outer_shape g y x2 t ht2).2
      exact hne (by omega)
  · apply List.Pairwise.imp ?_ (List.nodup_range _)
    intro y1 y2 hne
    intro t ht1 ht2
    rw [List.mem_flatMap] at ht1 ht2
    obtain ⟨x1, _, htx1⟩ := ht1
    obtain ⟨x2, _, htx2⟩ := ht2
    have h1 := (mem_outer_shape g y1 x1 t htx1).1
    have h2 := (mem_outer_shape g y2 x2 t htx2).1
    exact hne (by omega)

/-- `apply_vector_map` emits exactly one `(distance², statistic)` sample per
visited quadruple, in loop order. -/
lemma apply_vector_map_eq_map (g : vector_2d) (f : D → D → D) :
    apply_vector_map g f = (enumPairs g).map
      (fun t => (pair_dist2 t.x t.y t.i t.j, f (cell g t.y t.x) (cell g t.j t.i))) := by
  unfold apply_vector_map enumPairs
  rw [List.map_flatMap]
  apply List.flatMap_congr
  intro y hy
  rw [List.map_flatMap]
  apply List.flatMap_congr
  intro x hx
  by_cases hnan : (cell g y x).isnan
  · rw [if_pos hnan, if_pos hnan]
    rfl
  · rw [if_neg hnan, if_neg hnan, List.map_flatMap]
    apply List.flatMap_congr
    intro j hj
    rw [List.map_filterMap]
    apply List.filterMap_congr
    intro i hi
    by_cases hc : (cell g j i).isnan
    · rw [if_pos hc, if_pos hc]
      rfl
    · rw [if_neg hc, if_neg hc]
      rfl

/-- C2: the pairwise enumerator visits each unordered pair of non-missing
cells whose inner point does not precede the outer point in row-major
lexicographic order exactly once — the visited quadruple list has no
duplicate and contains exactly the valid quadruples — and
`apply_vector_map` emits exactly one `(distance², statistic)` sample per
visited quadruple; in particular, for a 2×2 grid with no missing entries
the subtract variant produces exactly 10 samples: 4 self-pairs at squared
distance 0, 4 at squared distance 1 and 2 at squared distance 2. -/
theorem C2_each_pair_exactly_once (g : vector_2d) (f : D → D → D)
    (_hne : 0 < g.length) (_hw : 0 < gridWidth g)
    (_hrect : ∀ row ∈ g, row.length = gridWidth g) :
    ((enumPairs g).Nodup ∧
     (∀ t : PairIdx, t ∈ enumPairs g ↔ validPair g t) ∧
     apply_vector_map g f = (enumPairs g).map
       (fun t => (pair_dist2 t.x t.y t.i t.j, f (cell g t.y t.x) (cell g t.j t.i)))) ∧
    (∀ a b c d : D, a.isnan = false → b.isnan = false → c.isnan = false →
      d.isnan = false →
      (subtract_pairs [[a, b], [c, d]]).length = 10 ∧
      (subtract_pairs [[a, b], [c, d]]).countP (fun p => p.1 = 0) = 4 ∧
      (subtract_pairs [[a, b], [c, d]]).countP (fun p => p.1 = 1) = 4 ∧
      (subtract_pairs [[a, b], [c, d]]).countP (fun p => p.1 = 2) = 2) := by
  refine ⟨⟨enumPairs_nodup g, fun t => mem_enumPairs g t, apply_vector_map_eq_map g f⟩, ?_⟩
  intro a b c d ha hb hc hd
  norm_num [subtract_pairs, apply_vector_map, cell, gridWidth, pair_dist2, usub,
    ha, hb, hc, hd, List.range_succ, List.range', List.filterMap_cons,
    List.getElem?_cons_zero, List.getElem?_cons_succ, List.getD,
    List.countP_cons, List.countP_nil]

theorem C2_witness :
    (enumPairs [[D.num 1, D.num 2], [D.num 3, D.num 4]]).Nodup ∧
    (subtract_pairs [[D.num 1, D.num 2], [D.num 3, D.num 4]]).length = 10 ∧
    (subtract_pairs [[D.num 1, D.num 2], [D.num 3, D.num 4]]).countP
      (fun p => p.1 = 0) = 4 ∧
    (subtract_pairs [[D.num 1, D.num 2], [D.num 3, D.num 4]]).countP
      (fun p => p.1 = 1) = 4 ∧
    (subtract_pairs [[D.num 1, D.num 2], [D.num 3, D.num 4]]).countP
      (fun p => p.1 = 2) = 2 := by
  have h := C2_each_pair_exactly_once [[D.num 1, D.num 2], [D.num 3, D.num 4]]
    (fun a b => D.dabs (D.sub a b)) (by norm_num) (by norm_num [gridWidth])
    (by intro row hrow
        simp only [List.mem_cons, List.not_mem_nil, or_false] at hrow
        rcases hrow with h1 | h1 <;> simp [h1, gridWidth])
  have h2 := h.2 (D.num 1) (D.num 2) (D.num 3) (D.num 4) rfl rfl rfl rfl
  exact ⟨h.1.1, h2.1, h2.2.1, h2.2.2.1, h2.2.2.2⟩

/-- Gauss sum of the reversed differences `w - x` over `x < w`. -/
lemma gauss_rev (w : ℕ) : 2 * (∑ x ∈ Finset.range w, (w - x)) = w * (w + 1) := by
  have h1 : ∑ x ∈ Finset.range w, (w - x) = ∑ x ∈ Finset.range w, (x + 1) := by
    rw [← Finset.sum_range_reflect (fun j => j + 1) w]
    apply Finset.sum_congr rfl
    intro x hx
    have := Finset.mem_range.mp hx
    omega
  rw [h1, Finset.sum_add_distrib, Finset.sum_const, Finset.card_range, smul_eq_mul, mul_one]
  have h2 := Finset.sum_range_id_mul_two w
  rcases w with _ | k
  · simp
  · have h3 : (k + 1) - 1 = k := rfl
    rw [h3] at h2
    nlinarith [h2]

lemma length_flatMap_le {α β : Type} (l : List α) (F : α → List β) (B : α → ℕ)
    (h : ∀ a ∈ l, (F a).length ≤ B a) :
    (l.flatMap F).length ≤ (l.map B).sum := by
  rw [List.length_flatMap]
  exact List.sum_le_sum h

lemma sum_map_const_of {α : Type} (l : List α) (B : α → ℕ) (c : ℕ)
    (h : ∀ a ∈ l, B a = c) : (l.map B).sum = l.length * c := by
  induction l with
  | nil => simp
  | cons a t ih =>
    simp only [List.map_cons, List.sum_cons, List.length_cons]
    rw [h a (List.mem_cons_self ..), ih (fun b hb => h b (List.mem_cons_of_mem _ hb))]
    ring

/-- Bound on the samples contributed by one outer cell `(y, x)`: at most
`w - x` from row `y` and at most `w` from each of the `h - y - 1` rows
below. -/
lemma per_cell_bound (g : vector_2d) (y x : ℕ) (hy : y < g.length) :
    (if (cell g y x).isnan then ([] : List PairIdx) else
        (List.range' y (g.length - y)).flatMap fun j =>
          (List.range' (if j = y then x else 0)
              (gridWidth g - (if j = y then x else 0))).filterMap fun i =>
            if (cell g j i).isnan then none else some ⟨y, x, j, i⟩).length ≤
      (gridWidth g - x) + (g.length - y - 1) * gridWidth g := by
  split
  · simp
  · refine le_trans (length_flatMap_le _ _
      (fun j => gridWidth g - (if j = y then x else 0)) ?_) ?_
    · intro j hj
      calc (_ : List PairIdx).length ≤ (List.range' (if j = y then x else 0)
            (gridWidth g - (if j = y then x else 0))).length :=
          List.length_filterMap_le _ _
      _ = gridWidth g - (if j = y then x else 0) := List.length_range' ..
    · have hk : g.length - y = (g.length - y - 1) + 1 := by omega
      rw [hk, List.range'_succ]
      simp only [List.map_cons, List.sum_cons, if_pos rfl]
      have hrest : ((List.range' (y + 1) (g.length - y - 1)).map
          (fun j => gridWidth g - (if j = y then x else 0))).sum
          = (g.length - y - 1) * gridWidth g := by
        rw [sum_map_const_of _ _ (gridWidth g) ?_, List.length_range']
        intro j hj
        have := List.mem_range'_1.mp hj
        rw [if_neg (by omega), Nat.sub_zero]
      rw [hrest]
      simp

/-- Closed form: the per-loop bounds sum to `hw(hw+1)`. -/
lemma reservation_id (h w : ℕ) :
    h * (w * (w + 1)) + w * w * (h * (h - 1)) = h * w * (h * w + 1) := by
  rcases h with _ | k
  · simp
  · have hk : (k + 1) - 1 = k := rfl
    rw [hk]
    ring

/-- Twice the number of visited quadruples is at most `hw(hw+1)`. -/
lemma enumPairs_length_bound (g : vector_2d) :
    2 * (enumPairs g).length ≤
      g.length * gridWidth g * (g.length * gridWidth g + 1) := by
  have main : (enumPairs g).length ≤
      ((List.range g.length).map (fun y =>
        ((List.range (gridWidth g)).map
          (fun x => (gridWidth g - x) + (g.length - y - 1) * gridWidth g)).sum)).sum := by
    simp only [enumPairs]
    refine length_flatMap_le _ _ _ ?_
    intro y hy
    refine length_flatMap_le _ _ _ ?_
    intro x hx
    exact per_cell_bound g y x (List.mem_range.mp hy)
  have hsum : ((List.range g.length).map (fun y =>
      ((List.range (gridWidth g)).map
        (fun x => (gridWidth g - x) + (g.length - y - 1) * gridWidth g)).sum)).sum
      = ∑ y ∈ Finset.range g.length, ∑ x ∈ Finset.range (gridWidth g),
          ((gridWidth g - x) + (g.length - y - 1) * gridWidth g) := rfl
  rw [hsum] at main
  have inner_eq : ∀ y, (∑ x ∈ Finset.range (gridWidth g),
      ((gridWidth g - x) + (g.length - y - 1) * gridWidth g))
      = (∑ x ∈ Finset.range (gridWidth g), (gridWidth g - x)) +
        gridWidth g * ((g.length - y - 1) * gridWidth g) := by
    intro y
    rw [Finset.sum_add_distrib, Finset.sum_const, Finset.card_range, smul_eq_mul]
  have outer_eq : (∑ y ∈ Finset.range g.length, ∑ x ∈ Finset.range (gridWidth g),
      ((gridWidth g - x) + (g.length - y - 1) * gridWidth g))
      = g.length * (∑ x ∈ Finset.range (gridWidth g), (gridWidth g - x)) +
        gridWidth g * gridWidth g * (∑ y ∈ Finset.range g.length, y) := by
    calc (∑ y ∈ Finset.range g.length, ∑ x ∈ Finset.range (gridWidth g),
        ((gridWidth g - x) + (g.length - y - 1) * gridWidth g))
        = ∑ y ∈ Finset.range g.length,
          ((∑ x ∈ Finset.range (gridWidth g), (gridWidth g - x)) +
            gridWidth g * gridWidth g * (g.length - 1 - y)) := by
          apply Finset.sum_congr rfl
          intro y hy
          rw [inner_eq y]
          congr 1
          have : g.length - y - 1 = g.length - 1 - y := by omega
          rw [this]
          ring
    _ = g.length * (∑ x ∈ Finset.range (gridWidth g), (gridWidth g - x)) +
        gridWidth g * gridWidth g * (∑ y ∈ Finset.range g.length, (g.length - 1 - y)) := by
          rw [Finset.sum_add_distrib, Finset.sum_const, Finset.card_range, smul_eq_mul,
            ← Finset.mul_sum]
    _ = g.length * (∑ x ∈ Finset.range (gridWidth g), (gridWidth g - x)) +
        gridWidth g * gridWidth g * (∑ y ∈ Finset.range g.length, y) := by
          have hrefl : (∑ y ∈ Finset.range g.length, (g.length - 1 - y))
              = ∑ y ∈ Finset.range g.length, y := by
            simpa using Finset.sum_range_reflect (fun j => j) g.length
          rw [hrefl]
  rw [outer_eq] at main
  have h1 := gauss_rev (gridWidth g)
  have h2 := Finset.sum_range_id_mul_two g.length
  have hfin := reservation_id g.length (gridWidth g)
  nlinarith [main, h1, h2, hfin]

/-- C6 (amended): the total number of `(distance, statistic)` samples is at
most `h·w·(h·w + 1)/2` — one per unordered pair including self-pairs — while
the reservation heuristic `h·w·(h·w)/2` of the source is an approximation
that the sample count can exceed. -/
theorem C6_sample_count_bound (g : vector_2d) (f : D → D → D)
    (_h1 : 0 < g.length) (_h2 : 0 < gridWidth g)
    (_hrect : ∀ row ∈ g, row.length = gridWidth g) :
    (apply_vector_map g f).length ≤
      g.length * gridWidth g * (g.length * gridWidth g + 1) / 2 := by
  have hlen : (apply_vector_map g f).length = (enumPairs g).length := by
    rw [apply_vector_map_eq_map g f, List.length_map]
  refine (Nat.le_div_iff_mul_le (by norm_num)).mpr ?_
  rw [hlen, mul_comm]
  exact enumPairs_length_bound g

theorem C6_witness :
    (apply_vector_map [[D.num 1, D.num 2], [D.num 3, D.num 4]]
        (fun a b => D.dabs (D.sub a b))).length ≤
      (List.length [[D.num 1, D.num 2], [D.num 3, D.num 4]] *
        gridWidth [[D.num 1, D.num 2], [D.num 3, D.num 4]] *
        (List.length [[D.num 1, D.num 2], [D.num 3, D.num 4]] *
          gridWidth [[D.num 1, D.num 2], [D.num 3, D.num 4]] + 1)) / 2 :=
  C6_sample_count_bound [[D.num 1, D.num 2], [D.num 3, D.num 4]]
    (fun a b => D.dabs (D.sub a b)) (by norm_num) (by norm_num [gridWidth])
    (by intro row hrow
        simp only [List.mem_cons, List.not_mem_nil, or_false] at hrow
        rcases hrow with h1 | h1 <;> simp [h1, gridWidth])

/-- C6 (counterexample to the claim as stated): for the 2×2 grid of the
spec's own scenario the enumerator produces 10 samples, which exceeds the
claimed upper bound `h·w·(h·w)/2 = 8`. -/
theorem C6_counterexample :
    (subtract_pairs [[D.num 1, D.num 2], [D.num 3, D.num 4]]).length = 10 ∧
    ¬ ((subtract_pairs [[D.num 1, D.num 2], [D.num 3, D.num 4]]).length ≤
        2 * 2 * (2 * 2) / 2) := by
  have hl : (subtract_pairs [[D.num 1, D.num 2], [D.num 3, D.num 4]]).length = 10 := by
    norm_num [subtract_pairs, apply_vector_map, cell, gridWidth, pair_dist2, usub,
      D.isnan, D.dabs, D.sub, List.range_succ, List.range', List.filterMap_cons,
      List.getElem?_cons_zero, List.getElem?_cons_succ, List.getD]
  rw [hl]
  norm_num
